import Mathlib

/-!
Shallow embedding of the SPSC ring buffer from `src/app/src/spsc_ring.c`.

The C structure `struct spsc_ring` holds a heap-allocated `int` array `buf`,
a power-of-two `size` with `mask = size - 1`, and two `uint32_t` cursors
`head` (consumer) and `tail` (producer).  Machine `uint32_t` arithmetic is
modelled on `Nat` with explicit reduction modulo `2^32` exactly where the C
code wraps (`t + 1` on a cursor); the bitwise AND with the mask is kept as
`&&&` on `Nat`, as in the source.  A nullable `spsc_ring *` is `Option
spsc_ring`; the `int *out_fd` output location of `pop` is `Option Int`
(`none` = null pointer, `some v` = a location currently holding `v`).
-/

/-- `2^32`, the modulus of `uint32_t` arithmetic. -/
def U32MOD : Nat := 4294967296

theorem U32MOD_eq : U32MOD = 2 ^ 32 := by norm_num [U32MOD]

/-- The C `struct spsc_ring`. -/
structure spsc_ring where
  buf  : List Int
  size : Nat
  mask : Nat
  head : Nat
  tail : Nat
deriving Repr, DecidableEq

/-- `spsc_ring_init` (src/app/src/spsc_ring.c:86-132): rejects a capacity of
zero or one that is not a power of two, otherwise allocates a
zero-initialized buffer of `capacity` slots, sets `mask = capacity - 1`, and
zeroes both cursors.  Allocation is modelled as succeeding. -/
def spsc_ring_init (capacity : Nat) : Option spsc_ring :=
  if capacity = 0 ∨ (capacity &&& (capacity - 1)) ≠ 0 then
    none
  else
    some { buf := List.replicate capacity 0
         , size := capacity
         , mask := capacity - 1
         , head := 0
         , tail := 0 }

/-- `spsc_ring_is_empty` (src/app/src/spsc_ring.c:322-339):
`(h & mask) == (t & mask)`. -/
def spsc_ring_is_empty (ring : spsc_ring) : Bool :=
  (ring.head &&& ring.mask) == (ring.tail &&& ring.mask)

/-- `spsc_ring_is_full` (src/app/src/spsc_ring.c:341-358):
`((t + 1) & mask) == (h & mask)`, where `t + 1` wraps as `uint32_t`. -/
def spsc_ring_is_full (ring : spsc_ring) : Bool :=
  ((((ring.tail + 1) % U32MOD) &&& ring.mask) == (ring.head &&& ring.mask))

/-- `spsc_ring_push` (src/app/src/spsc_ring.c:172-229): null guard, full
check via `spsc_ring_is_full`, then `buf[t & mask] = fd` and
`tail = t + 1` (wrapping).  Returns the C return code and the ring. -/
def spsc_ring_push (ring : Option spsc_ring) (fd : Int) : Int × Option spsc_ring :=
  match ring with
  | none => (-1, none)
  | some r =>
    if spsc_ring_is_full r then
      (-1, some r)
    else
      (0, some { r with buf := r.buf.set (r.tail &&& r.mask) fd
                      , tail := (r.tail + 1) % U32MOD })

/-- `spsc_ring_pop` (src/app/src/spsc_ring.c:268-320): no null guard; empty
check via `spsc_ring_is_empty`; on success, if an output location was
supplied it receives `buf[h & mask]`, and `head` advances (wrapping).
Returns the C return code, the ring, and the output location. -/
def spsc_ring_pop (ring : spsc_ring) (out_fd : Option Int) :
    Int × spsc_ring × Option Int :=
  if spsc_ring_is_empty ring then
    (-1, ring, out_fd)
  else
    (0, { ring with head := (ring.head + 1) % U32MOD },
     match out_fd with
     | none => none
     | some _ => some (ring.buf.getD (ring.head &&& ring.mask) 0))

/-- `spsc_ring_destroy` (src/app/src/spsc_ring.c:389-406): the caller's
handle is `Option (Option spsc_ring)` (`none` = null `spsc_ring **`;
`some p` = a valid handle currently holding pointer `p`).  The body runs
only when both pointers are non-null, and then clears the handle. -/
def spsc_ring_destroy (ring : Option (Option spsc_ring)) :
    Option (Option spsc_ring) :=
  match ring with
  | none => none
  | some none => some none
  | some (some _) => some none

/-- C11 memory orderings appearing in the source. -/
inductive MemOrder where
  | relaxed
  | acquire
  | release
deriving DecidableEq, Repr

/-- Ordering of the atomic load of `head` (the read cursor) inside
`spsc_ring_is_full` (src/app/src/spsc_ring.c:348). -/
def spsc_ring_is_full_head_load_order : MemOrder := MemOrder.relaxed

/-- Ordering of the atomic load of `tail` (the write cursor) inside
`spsc_ring_is_full` (src/app/src/spsc_ring.c:355). -/
def spsc_ring_is_full_tail_load_order : MemOrder := MemOrder.acquire

/-! ## Derived notions used by the verification -/

/-- The unsigned (`uint32_t`) difference `tail - head`: the number of
values currently stored. -/
def ringDiff (r : spsc_ring) : Nat :=
  (r.tail + U32MOD - r.head) % U32MOD

/-- The stored values, oldest first: slot `(head + i) % size` for
`i < ringDiff`. -/
def ringContents (r : spsc_ring) : List Int :=
  (List.range (ringDiff r)).map (fun i => r.buf.getD ((r.head + i) % r.size) 0)

/-- The structural invariant of a constructed ring. -/
structure Valid (r : spsc_ring) : Prop where
  size_pow : ∃ k, k ≤ 32 ∧ r.size = 2 ^ k
  mask_eq  : r.mask = r.size - 1
  head_lt  : r.head < U32MOD
  tail_lt  : r.tail < U32MOD
  buf_len  : r.buf.length = r.size
  diff_lt  : ringDiff r < r.size

/-- A single sequential operation on the ring. -/
inductive RingOp where
  | push (v : Int)
  | pop
deriving Repr, DecidableEq

/-- Run a sequence of operations on the ring (pops use a non-null output
location), collecting the values returned by the successful pops. -/
def runRing (r : spsc_ring) : List RingOp → spsc_ring × List Int
  | [] => (r, [])
  | RingOp.push v :: ops => runRing ((spsc_ring_push (some r) v).2.getD r) ops
  | RingOp.pop :: ops =>
      let res := spsc_ring_pop r (some 0)
      let rest := runRing res.2.1 ops
      if res.1 = 0 then (rest.1, res.2.2.getD 0 :: rest.2) else rest

/-- The spec's abstract model (section 5, "values popped are returned in
exactly the order they were pushed"): a FIFO queue of at most
`cap - 1` values; a push onto a full queue and a pop from an empty queue
are dropped.  Defined from the spec's words, to be compared with the
ring via refinement. -/
def runQueue (cap : Nat) (q : List Int) : List RingOp → List Int × List Int
  | [] => (q, [])
  | RingOp.push v :: ops =>
      if q.length = cap - 1 then runQueue cap q ops
      else runQueue cap (q ++ [v]) ops
  | RingOp.pop :: ops =>
      match q with
      | [] => runQueue cap [] ops
      | x :: q' =>
          let rest := runQueue cap q' ops
          (rest.1, x :: rest.2)

/-- Push a list of values in order, collecting the return codes. -/
def pushAll (r : spsc_ring) : List Int → List Int × spsc_ring
  | [] => ([], r)
  | v :: vs =>
      let res := spsc_ring_push (some r) v
      let rest := pushAll (res.2.getD r) vs
      (res.1 :: rest.1, rest.2)

/-! ## Basic facts about the invariant -/

theorem Valid.size_pos {r : spsc_ring} (hv : Valid r) : 0 < r.size := by
  obtain ⟨k, -, hs⟩ := hv.size_pow
  exact hs ▸ Nat.pos_pow_of_pos k (by norm_num)

theorem Valid.size_dvd {r : spsc_ring} (hv : Valid r) : r.size ∣ U32MOD := by
  obtain ⟨k, hk, hs⟩ := hv.size_pow
  rw [hs, U32MOD_eq]
  exact pow_dvd_pow 2 hk

theorem Valid.size_le {r : spsc_ring} (hv : Valid r) : r.size ≤ U32MOD :=
  Nat.le_of_dvd (by norm_num [U32MOD]) hv.size_dvd

/-- Masking with `mask = 2^k - 1` is reduction modulo `size = 2^k`. -/
theorem mask_and {r : spsc_ring} (hv : Valid r) (x : Nat) :
    x &&& r.mask = x % r.size := by
  obtain ⟨k, -, hs⟩ := hv.size_pow
  rw [hv.mask_eq, hs]
  exact Nat.and_pow_two_sub_one_eq_mod x k

theorem mod_u32_mod_size {r : spsc_ring} (hv : Valid r) (x : Nat) :
    x % U32MOD % r.size = x % r.size :=
  Nat.mod_mod_of_dvd x hv.size_dvd

/-- `s ∣ U32MOD`, `h < U32MOD`: divisibility of the wrapped difference by
`s` is congruence of the cursors modulo `s`. -/
theorem sub_mod_eq_zero_iff {h t s : Nat} (hdvd : s ∣ U32MOD)
    (hh : h < U32MOD) : (t + U32MOD - h) % s = 0 ↔ t % s = h % s := by
  have hA : (t + U32MOD - h) + h = t + U32MOD := by
    have : h ≤ t + U32MOD := le_trans hh.le (Nat.le_add_left _ _)
    omega
  have hu : U32MOD ≡ 0 [MOD s] := (Nat.modEq_zero_iff_dvd).2 hdvd
  constructor
  · intro h0
    have h1 : (t + U32MOD - h) ≡ 0 [MOD s] := by
      unfold Nat.ModEq
      simpa using h0
    have h2 : t + U32MOD ≡ h [MOD s] := by
      calc t + U32MOD = (t + U32MOD - h) + h := hA.symm
        _ ≡ 0 + h [MOD s] := h1.add_right h
        _ = h := Nat.zero_add h
    have h3 : t + U32MOD ≡ t [MOD s] := by
      calc t + U32MOD ≡ t + 0 [MOD s] := (Nat.ModEq.refl t).add hu
        _ = t := Nat.add_zero t
    exact (h3.symm.trans h2)
  · intro h0
    have h0' : t ≡ h [MOD s] := h0
    have h1 : t + U32MOD ≡ h [MOD s] := by
      calc t + U32MOD ≡ h + 0 [MOD s] := h0'.add hu
        _ = h := Nat.add_zero h
    have h2 : (t + U32MOD - h) + h ≡ 0 + h [MOD s] := by
      rw [hA, Nat.zero_add]; exact h1
    have h3 : (t + U32MOD - h) ≡ 0 [MOD s] :=
      Nat.ModEq.add_right_cancel (Nat.ModEq.refl h) h2
    simpa using h3

theorem succ_mod_eq_zero_iff {d s : Nat} (hd : d < s) :
    (d + 1) % s = 0 ↔ d = s - 1 := by
  constructor
  · intro h0
    rcases Nat.lt_or_ge (d + 1) s with h | h
    · rw [Nat.mod_eq_of_lt h] at h0; omega
    · omega
  · intro h
    have hs : d + 1 = s := by omega
    rw [hs, Nat.mod_self]

/-- The raw difference and `ringDiff` agree modulo `size`, and `ringDiff`
is reduced. -/
theorem diff_mod {r : spsc_ring} (hv : Valid r) :
    (r.tail + U32MOD - r.head) % r.size = ringDiff r := by
  calc (r.tail + U32MOD - r.head) % r.size
      = (r.tail + U32MOD - r.head) % U32MOD % r.size :=
        (mod_u32_mod_size hv _).symm
    _ = ringDiff r % r.size := rfl
    _ = ringDiff r := Nat.mod_eq_of_lt hv.diff_lt

/-- `spsc_ring_is_empty` decides `ringDiff = 0` on a valid ring. -/
theorem is_empty_iff {r : spsc_ring} (hv : Valid r) :
    spsc_ring_is_empty r = true ↔ ringDiff r = 0 := by
  rw [spsc_ring_is_empty, beq_iff_eq, mask_and hv, mask_and hv]
  constructor
  · intro h
    have h0 := (sub_mod_eq_zero_iff hv.size_dvd hv.head_lt).2 h.symm
    rw [diff_mod hv] at h0
    exact h0
  · intro h
    have h0 : (r.tail + U32MOD - r.head) % r.size = 0 := by
      rw [diff_mod hv, h]
    exact ((sub_mod_eq_zero_iff hv.size_dvd hv.head_lt).1 h0).symm

/-- `spsc_ring_is_full` decides `ringDiff = size - 1` on a valid ring. -/
theorem is_full_iff {r : spsc_ring} (hv : Valid r) :
    spsc_ring_is_full r = true ↔ ringDiff r = r.size - 1 := by
  rw [spsc_ring_is_full, beq_iff_eq, mask_and hv, mask_and hv,
    mod_u32_mod_size hv, ← sub_mod_eq_zero_iff hv.size_dvd hv.head_lt]
  have hA : r.tail + 1 + U32MOD - r.head = (r.tail + U32MOD - r.head) + 1 := by
    have : r.head ≤ r.tail + U32MOD := le_trans hv.head_lt.le (Nat.le_add_left _ _)
    omega
  have hcong : (r.tail + U32MOD - r.head) % r.size = ringDiff r % r.size := by
    rw [diff_mod hv, Nat.mod_eq_of_lt hv.diff_lt]
  have h5 : ((r.tail + U32MOD - r.head) + 1) % r.size
      = (ringDiff r + 1) % r.size := Nat.ModEq.add_right 1 hcong
  rw [hA, h5, succ_mod_eq_zero_iff hv.diff_lt]

/-! ## Cursor arithmetic -/

theorem diff_advance {t h : Nat} (hh : h < U32MOD) (ht : t < U32MOD)
    (hD : (t + U32MOD - h) % U32MOD + 1 < U32MOD) :
    ((t + 1) % U32MOD + U32MOD - h) % U32MOD
      = (t + U32MOD - h) % U32MOD + 1 := by
  unfold U32MOD at *
  omega

theorem diff_retreat {t h : Nat} (ht : t < U32MOD)
    (hD : 0 < (t + U32MOD - h) % U32MOD) :
    (t + U32MOD - (h + 1) % U32MOD) % U32MOD
      = (t + U32MOD - h) % U32MOD - 1 := by
  unfold U32MOD at *
  omega

theorem getD_set_ne (l : List Int) {i j : Nat} (a d : Int) (hij : i ≠ j) :
    (l.set i a).getD j d = l.getD j d := by
  simp [List.getD_eq_getElem?_getD, List.getElem?_set_ne hij]

theorem getD_set_self (l : List Int) {i : Nat} (a d : Int) (hi : i < l.length) :
    (l.set i a).getD i d = a := by
  simp [List.getD_eq_getElem?_getD, List.getElem?_set_self hi]

/-- The write position is `ringDiff` slots past the read position. -/
theorem tail_mod_eq {r : spsc_ring} (hv : Valid r) :
    r.tail % r.size = (r.head + ringDiff r) % r.size := by
  have hA : (r.tail + U32MOD - r.head) + r.head = r.tail + U32MOD := by
    have : r.head ≤ r.tail + U32MOD := le_trans hv.head_lt.le (Nat.le_add_left _ _)
    omega
  have hu : U32MOD ≡ 0 [MOD r.size] := (Nat.modEq_zero_iff_dvd).2 hv.size_dvd
  have hcong : (r.tail + U32MOD - r.head) ≡ ringDiff r [MOD r.size] := by
    unfold Nat.ModEq
    rw [diff_mod hv, Nat.mod_eq_of_lt hv.diff_lt]
  have h1 : r.tail ≡ r.tail + U32MOD [MOD r.size] := by
    calc r.tail = r.tail + 0 := (Nat.add_zero _).symm
      _ ≡ r.tail + U32MOD [MOD r.size] := (Nat.ModEq.refl _).add hu.symm
  have h2 : r.tail ≡ ringDiff r + r.head [MOD r.size] := by
    calc r.tail ≡ r.tail + U32MOD [MOD r.size] := h1
      _ = (r.tail + U32MOD - r.head) + r.head := hA.symm
      _ ≡ ringDiff r + r.head [MOD r.size] := hcong.add_right _
  calc r.tail % r.size = (ringDiff r + r.head) % r.size := h2
    _ = (r.head + ringDiff r) % r.size := by rw [Nat.add_comm]

theorem ringContents_length (r : spsc_ring) :
    (ringContents r).length = ringDiff r := by
  simp [ringContents]

/-! ## The push and pop steps -/

/-- A push on a full ring fails and changes nothing. -/
theorem push_full {r : spsc_ring} (v : Int)
    (hf : spsc_ring_is_full r = true) :
    spsc_ring_push (some r) v = (-1, some r) := by
  simp [spsc_ring_push, hf]

/-- A pop on an empty ring fails and changes nothing, the output location
included. -/
theorem pop_empty {r : spsc_ring} (out_fd : Option Int)
    (he : spsc_ring_is_empty r = true) :
    spsc_ring_pop r out_fd = (-1, r, out_fd) := by
  simp [spsc_ring_pop, he]

/-- A push on a valid non-full ring succeeds and appends the value. -/
theorem push_ok {r : spsc_ring} (hv : Valid r) (v : Int)
    (hnf : spsc_ring_is_full r = false) :
    ∃ r', spsc_ring_push (some r) v = (0, some r') ∧ Valid r' ∧
      r'.size = r.size ∧ r'.head = r.head ∧
      ringDiff r' = ringDiff r + 1 ∧
      ringContents r' = ringContents r ++ [v] := by
  have hD : ringDiff r + 1 < r.size := by
    have h1 := hv.diff_lt
    have h2 : ringDiff r ≠ r.size - 1 := by
      intro h
      have h3 := (is_full_iff hv).2 h
      rw [hnf] at h3
      exact Bool.false_ne_true h3
    omega
  have hDM : ringDiff r + 1 < U32MOD := lt_of_lt_of_le hD hv.size_le
  refine ⟨{ r with
      buf := r.buf.set (r.tail &&& r.mask) v,
      tail := (r.tail + 1) % U32MOD }, ?_, ?_⟩
  · simp [spsc_ring_push, hnf]
  have hdiff : ringDiff { r with
      buf := r.buf.set (r.tail &&& r.mask) v,
      tail := (r.tail + 1) % U32MOD } = ringDiff r + 1 := by
    unfold ringDiff
    exact diff_advance hv.head_lt hv.tail_lt hDM
  have hlen : (r.buf.set (r.tail &&& r.mask) v).length = r.size := by
    simp [hv.buf_len]
  refine ⟨⟨hv.size_pow, hv.mask_eq, hv.head_lt,
      Nat.mod_lt _ (by norm_num [U32MOD]), hlen, ?_⟩, rfl, rfl, hdiff, ?_⟩
  · rw [hdiff]; exact hD
  · unfold ringContents
    rw [hdiff]
    simp only [List.range_succ, List.map_append, List.map_cons, List.map_nil]
    congr 1
    case _ =>
      apply List.map_congr_left
      intro i hi
      have hiD : i < ringDiff r := List.mem_range.1 hi
      show (r.buf.set (r.tail &&& r.mask) v).getD ((r.head + i) % r.size) 0
          = r.buf.getD ((r.head + i) % r.size) 0
      rw [mask_and hv]
      apply getD_set_ne
      intro heq
      rw [tail_mod_eq hv] at heq
      have hcancel : ringDiff r ≡ i [MOD r.size] :=
        Nat.ModEq.add_left_cancel' r.head heq
      have : ringDiff r = i := by
        have h1 : ringDiff r % r.size = i % r.size := hcancel
        rw [Nat.mod_eq_of_lt hv.diff_lt,
          Nat.mod_eq_of_lt (lt_trans hiD hv.diff_lt)] at h1
        exact h1
      omega
    case _ =>
      congr 1
      show (r.buf.set (r.tail &&& r.mask) v).getD
          ((r.head + ringDiff r) % r.size) 0 = v
      rw [mask_and hv, ← tail_mod_eq hv]
      exact getD_set_self _ _ _ (by rw [hv.buf_len]; exact Nat.mod_lt _ hv.size_pos)

/-- A pop on a valid non-empty ring succeeds, returns the oldest value, and
advances the read cursor; with no output location it discards the value. -/
theorem pop_ok {r : spsc_ring} (hv : Valid r)
    (hne : spsc_ring_is_empty r = false) :
    ∃ r' x q', ringContents r = x :: q' ∧
      (∀ o : Int, spsc_ring_pop r (some o) = (0, r', some x)) ∧
      spsc_ring_pop r none = (0, r', none) ∧
      Valid r' ∧ r'.size = r.size ∧ r'.buf = r.buf ∧ r'.tail = r.tail ∧
      r'.head = (r.head + 1) % U32MOD ∧
      ringDiff r' = ringDiff r - 1 ∧
      ringContents r' = q' := by
  have hD : 0 < ringDiff r := by
    rcases Nat.eq_zero_or_pos (ringDiff r) with h | h
    · have h1 := (is_empty_iff hv).2 h
      rw [hne] at h1
      exact absurd h1 Bool.false_ne_true
    · exact h
  refine ⟨{ r with head := (r.head + 1) % U32MOD },
    r.buf.getD (r.head &&& r.mask) 0,
    (List.range (ringDiff r - 1)).map
      (fun i => r.buf.getD ((r.head + (i + 1)) % r.size) 0),
    ?_, ?_, ?_, ?_⟩
  · unfold ringContents
    have hsplit : ringDiff r = (ringDiff r - 1) + 1 := by omega
    rw [hsplit, List.range_succ_eq_map, List.map_cons, List.map_map]
    rw [mask_and hv]
    simp [Function.comp]
  · intro o
    simp [spsc_ring_pop, hne]
  · simp [spsc_ring_pop, hne]
  have hdiff : ringDiff { r with head := (r.head + 1) % U32MOD }
      = ringDiff r - 1 := by
    unfold ringDiff
    exact diff_retreat hv.tail_lt hD
  refine ⟨⟨hv.size_pow, hv.mask_eq, Nat.mod_lt _ (by norm_num [U32MOD]),
      hv.tail_lt, hv.buf_len, ?_⟩, rfl, rfl, rfl, rfl, hdiff, ?_⟩
  · rw [hdiff]
    exact lt_of_le_of_lt (Nat.sub_le _ _) hv.diff_lt
  · unfold ringContents
    rw [hdiff]
    apply List.map_congr_left
    intro i hi
    show r.buf.getD (((r.head + 1) % U32MOD + i) % r.size) 0
        = r.buf.getD ((r.head + (i + 1)) % r.size) 0
    have hcong : ((r.head + 1) % U32MOD + i) % r.size
        = ((r.head + 1) + i) % r.size := by
      have h1 : (r.head + 1) % U32MOD ≡ r.head + 1 [MOD r.size] := by
        unfold Nat.ModEq
        exact mod_u32_mod_size hv _
      exact h1.add_right i
    rw [hcong, Nat.add_assoc, Nat.add_comm 1 i]

/-! ## Construction -/

theorem init_pow_two {capacity k : Nat} (hk : capacity = 2 ^ k) :
    spsc_ring_init capacity
      = some { buf := List.replicate capacity 0, size := capacity,
               mask := capacity - 1, head := 0, tail := 0 } := by
  have h1 : capacity ≠ 0 := by
    rw [hk]; exact (Nat.pos_pow_of_pos k (by norm_num)).ne'
  have h2 : capacity &&& (capacity - 1) = 0 := by
    rw [hk, Nat.and_pow_two_sub_one_eq_mod, Nat.mod_self]
  simp [spsc_ring_init, h1, h2]

theorem init_valid {capacity k : Nat} (hk : capacity = 2 ^ k) (hk32 : k ≤ 32)
    {r0 : spsc_ring} (h0 : spsc_ring_init capacity = some r0) :
    Valid r0 ∧ r0.size = capacity ∧ r0.head = 0 ∧ r0.tail = 0 ∧
      r0.mask = capacity - 1 ∧ r0.buf = List.replicate capacity 0 ∧
      ringDiff r0 = 0 ∧ ringContents r0 = [] := by
  rw [init_pow_two hk, Option.some_inj] at h0
  subst h0
  have hdiff :
      ringDiff (spsc_ring.mk (List.replicate capacity 0) capacity
        (capacity - 1) 0 0) = 0 := by
    simp [ringDiff]
  refine ⟨⟨⟨k, hk32, hk⟩, rfl, by norm_num [U32MOD], by norm_num [U32MOD],
      by simp, ?_⟩, rfl, rfl, rfl, rfl, rfl, hdiff, ?_⟩
  · rw [hdiff, hk]
    exact Nat.pos_pow_of_pos k (by norm_num)
  · rw [ringContents, hdiff]
    simp

/-! ## Refinement: the ring simulates the FIFO queue -/

theorem runRing_sim (ops : List RingOp) :
    ∀ (r : spsc_ring), Valid r →
      (runRing r ops).1.size = r.size ∧ Valid (runRing r ops).1 ∧
      ringContents (runRing r ops).1
        = (runQueue r.size (ringContents r) ops).1 ∧
      (runRing r ops).2 = (runQueue r.size (ringContents r) ops).2 := by
  induction ops with
  | nil => exact fun r hv => ⟨rfl, hv, rfl, rfl⟩
  | cons op ops ih =>
    intro r hv
    cases op with
    | push v =>
      cases hfull : spsc_ring_is_full r with
      | true =>
        have hstep : runRing r (RingOp.push v :: ops) = runRing r ops := by
          simp [runRing, push_full v hfull]
        have hq : (ringContents r).length = r.size - 1 := by
          rw [ringContents_length, (is_full_iff hv).1 hfull]
        have hqstep : runQueue r.size (ringContents r) (RingOp.push v :: ops)
            = runQueue r.size (ringContents r) ops := by
          simp [runQueue, hq]
        rw [hstep, hqstep]
        exact ih r hv
      | false =>
        obtain ⟨r', hpush, hv', hsize, hhead, hdiff, hcont⟩ :=
          push_ok hv v hfull
        have hstep : runRing r (RingOp.push v :: ops) = runRing r' ops := by
          simp [runRing, hpush]
        have hq : (ringContents r).length ≠ r.size - 1 := by
          rw [ringContents_length]
          intro h
          have h1 := (is_full_iff hv).2 h
          rw [hfull] at h1
          exact Bool.false_ne_true h1
        have hqstep : runQueue r.size (ringContents r) (RingOp.push v :: ops)
            = runQueue r.size (ringContents r ++ [v]) ops := by
          simp [runQueue, hq]
        rw [hstep, hqstep, ← hcont, ← hsize]
        exact ih r' hv'
    | pop =>
      cases hemp : spsc_ring_is_empty r with
      | true =>
        have hstep : runRing r (RingOp.pop :: ops) = runRing r ops := by
          simp [runRing, pop_empty (some 0) hemp]
        have hcontnil : ringContents r = [] := by
          rw [ringContents, (is_empty_iff hv).1 hemp]
          simp
        have hqstep : runQueue r.size (ringContents r) (RingOp.pop :: ops)
            = runQueue r.size (ringContents r) ops := by
          rw [hcontnil]
          simp [runQueue]
        rw [hstep, hqstep]
        exact ih r hv
      | false =>
        obtain ⟨r', x, q', hcons, hpops, -, hv', hsize, -, -, -, hdiff, hcont'⟩ :=
          pop_ok hv hemp
        have hstep : runRing r (RingOp.pop :: ops)
            = ((runRing r' ops).1, x :: (runRing r' ops).2) := by
          simp [runRing, hpops 0]
        have hqstep : runQueue r.size (ringContents r) (RingOp.pop :: ops)
            = ((runQueue r.size q' ops).1, x :: (runQueue r.size q' ops).2) := by
          rw [hcons]
          simp [runQueue]
        rw [hstep, hqstep]
        obtain ⟨s1, s2, s3, s4⟩ := ih r' hv'
        refine ⟨by rw [s1, hsize], s2, ?_, ?_⟩
        · show ringContents (runRing r' ops).1 = (runQueue r.size q' ops).1
          rw [s3, hcont', hsize]
        · show x :: (runRing r' ops).2 = x :: (runQueue r.size q' ops).2
          rw [s4, hcont', hsize]

/-- The construction guard `capacity & (capacity - 1) != 0` detects exactly
the non-powers of two among positive numbers. -/
theorem and_pred_eq_zero_iff : ∀ n : Nat, 0 < n →
    ((n &&& (n - 1)) = 0 ↔ ∃ k, n = 2 ^ k) := by
  intro n
  induction n using Nat.strong_induction_on with
  | _ n ih =>
    intro hn
    rcases Nat.lt_or_ge n 2 with h2 | h2
    · have h1 : n = 1 := by omega
      subst h1
      exact ⟨fun _ => ⟨0, rfl⟩, fun _ => rfl⟩
    · have hm : 0 < n / 2 := by omega
      have hdiv : (n &&& (n - 1)) / 2 = (n / 2) &&& ((n - 1) / 2) :=
        Nat.and_div_two
      rcases Nat.even_or_odd n with he | ho
      · have hn2 : n % 2 = 0 := Nat.even_iff.1 he
        have hm1 : (n - 1) / 2 = n / 2 - 1 := by omega
        have hmod : (n &&& (n - 1)) % 2 = 0 := by
          rcases Nat.mod_two_eq_zero_or_one (n &&& (n - 1)) with h0 | h1
          · exact h0
          · exact absurd (Nat.and_mod_two_eq_one.1 h1).1 (by omega)
        constructor
        · intro h0
          have hq : (n / 2) &&& (n / 2 - 1) = 0 := by
            rw [← hm1, ← hdiv, h0]
          obtain ⟨k, hk⟩ := (ih (n / 2) (by omega) hm).1 hq
          refine ⟨k + 1, ?_⟩
          rw [pow_succ, ← hk]
          omega
        · rintro ⟨k, hk⟩
          have hk1 : 1 ≤ k := by
            rcases Nat.eq_zero_or_pos k with h | h
            · rw [h, pow_zero] at hk; omega
            · exact h
          have hq2 : 2 ^ k = 2 ^ (k - 1) * 2 := by
            rw [← pow_succ]
            congr 1
            omega
          have hq : n / 2 = 2 ^ (k - 1) := by omega
          have h0 : (n / 2) &&& (n / 2 - 1) = 0 :=
            (ih (n / 2) (by omega) hm).2 ⟨k - 1, hq⟩
          have hd0 : (n &&& (n - 1)) / 2 = 0 := by
            rw [hdiv, hm1, h0]
          omega
      · have hn2 : n % 2 = 1 := Nat.odd_iff.1 ho
        have hm1 : (n - 1) / 2 = n / 2 := by omega
        have hdd : (n &&& (n - 1)) / 2 = n / 2 := by
          rw [hdiv, hm1, Nat.and_self]
        constructor
        · intro h0
          rw [h0] at hdd
          simp at hdd
          omega
        · rintro ⟨k, hk⟩
          rcases Nat.eq_zero_or_pos k with h | h
          · rw [h, pow_zero] at hk; omega
          · have hq2 : 2 ^ k = 2 ^ (k - 1) * 2 := by
              rw [← pow_succ]
              congr 1
              omega
            omega

/-! ## Abstract queue runs -/

theorem runQueue_pushes (cap : Nat) (vs : List Int) :
    ∀ (q : List Int) (rest : List RingOp), q.length + vs.length + 1 ≤ cap →
      runQueue cap q (vs.map RingOp.push ++ rest)
        = runQueue cap (q ++ vs) rest := by
  induction vs with
  | nil => intro q rest _; simp
  | cons v vs ih =>
    intro q rest h
    simp only [List.length_cons] at h
    have hne : q.length ≠ cap - 1 := by omega
    have hstep : runQueue cap q ((v :: vs).map RingOp.push ++ rest)
        = if q.length = cap - 1 then runQueue cap q (vs.map RingOp.push ++ rest)
          else runQueue cap (q ++ [v]) (vs.map RingOp.push ++ rest) := rfl
    rw [hstep, if_neg hne, ih (q ++ [v]) rest (by simp; omega)]
    simp

theorem runQueue_pops (cap : Nat) (q : List Int) :
    runQueue cap q (List.replicate q.length RingOp.pop) = ([], q) := by
  induction q with
  | nil => simp [runQueue]
  | cons x q ih => simp [runQueue, List.replicate_succ, ih]

/-! ## Bulk pushes -/

theorem pushAll_ok : ∀ (vs : List Int) (r : spsc_ring), Valid r →
    ringDiff r + vs.length + 1 ≤ r.size →
    (pushAll r vs).1 = List.replicate vs.length 0 ∧
    Valid (pushAll r vs).2 ∧ (pushAll r vs).2.size = r.size ∧
    ringDiff (pushAll r vs).2 = ringDiff r + vs.length := by
  intro vs
  induction vs with
  | nil => exact fun r hv _ => ⟨rfl, hv, rfl, rfl⟩
  | cons v vs ih =>
    intro r hv hle
    have hnf : spsc_ring_is_full r = false := by
      cases hfull : spsc_ring_is_full r with
      | false => rfl
      | true =>
        have h1 := (is_full_iff hv).1 hfull
        simp at hle
        omega
    obtain ⟨r', hpush, hv', hsize, -, hdiff, -⟩ := push_ok hv v hnf
    have hle' : ringDiff r' + vs.length + 1 ≤ r'.size := by
      rw [hdiff, hsize]
      simp at hle
      omega
    obtain ⟨hrets, hvf, hsizef, hdifff⟩ := ih r' hv' hle'
    rw [pushAll, hpush]
    simp only [Option.getD_some]
    refine ⟨by rw [hrets]; rfl, hvf, by rw [hsizef, hsize], ?_⟩
    rw [hdifff, hdiff]
    simp
    omega

/-! ## The claims -/

/-- C1: from a freshly constructed ring, every sequential run of pushes and
pops produces exactly the pop outputs of the abstract FIFO queue — the i-th
successful pop returns the i-th successfully pushed value, with no
duplication, loss or reordering, across arbitrarily many wrap-around
cycles; in particular, pushing `v₁ … vₖ` with `k < capacity` and then
popping `k` times yields `v₁ … vₖ` in order. -/
theorem spsc_ring_fifo {capacity k : Nat} (hk : capacity = 2 ^ k)
    (hk32 : k ≤ 32) {r0 : spsc_ring}
    (h0 : spsc_ring_init capacity = some r0) :
    (∀ ops : List RingOp,
      (runRing r0 ops).2 = (runQueue capacity [] ops).2) ∧
    (∀ vs : List Int, vs.length < capacity →
      (runRing r0 (vs.map RingOp.push
        ++ List.replicate vs.length RingOp.pop)).2 = vs) := by
  obtain ⟨hv, hsize, -, -, -, -, -, hcont⟩ := init_valid hk hk32 h0
  have hgen : ∀ ops, (runRing r0 ops).2 = (runQueue capacity [] ops).2 := by
    intro ops
    have h := (runRing_sim ops r0 hv).2.2.2
    rw [hcont, hsize] at h
    exact h
  refine ⟨hgen, fun vs hlen => ?_⟩
  rw [hgen, runQueue_pushes capacity vs []
    (List.replicate vs.length RingOp.pop) (by simp; omega)]
  rw [List.nil_append, runQueue_pops]

theorem spsc_ring_fifo_witness :
    ((runRing (spsc_ring.mk [0, 0, 0, 0] 4 3 0 0)
        [RingOp.push 11, RingOp.push 22, RingOp.pop, RingOp.push 33,
         RingOp.pop, RingOp.pop]).2
      = (runQueue 4 []
          [RingOp.push 11, RingOp.push 22, RingOp.pop, RingOp.push 33,
           RingOp.pop, RingOp.pop]).2) ∧
    (runRing (spsc_ring.mk [0, 0, 0, 0] 4 3 0 0)
        ([11, 22, 33].map RingOp.push ++ List.replicate 3 RingOp.pop)).2
      = [11, 22, 33] := by
  have h := spsc_ring_fifo (by norm_num : (4 : Nat) = 2 ^ 2) (by norm_num)
    (by decide : spsc_ring_init 4 = some (spsc_ring.mk [0, 0, 0, 0] 4 3 0 0))
  exact ⟨h.1 _, h.2 [11, 22, 33] (by norm_num)⟩

/-- C2: after exactly `capacity - 1` successful pushes into a fresh ring,
`spsc_ring_is_full` reports true and a further push fails leaving the whole
state (cursors and every slot) unchanged; after fewer pushes it reports
false. -/
theorem spsc_ring_full_detection {capacity k : Nat} (hk : capacity = 2 ^ k)
    (hk32 : k ≤ 32) {r0 : spsc_ring}
    (h0 : spsc_ring_init capacity = some r0) (vs : List Int) :
    (vs.length = capacity - 1 →
      (pushAll r0 vs).1 = List.replicate vs.length 0 ∧
      spsc_ring_is_full (pushAll r0 vs).2 = true ∧
      ∀ w : Int, spsc_ring_push (some (pushAll r0 vs).2) w
        = (-1, some (pushAll r0 vs).2)) ∧
    (vs.length < capacity - 1 →
      (pushAll r0 vs).1 = List.replicate vs.length 0 ∧
      spsc_ring_is_full (pushAll r0 vs).2 = false) := by
  obtain ⟨hv, hsize, -, -, -, -, hd0, -⟩ := init_valid hk hk32 h0
  have hcap : 0 < capacity := by
    rw [hk]; exact Nat.pos_pow_of_pos k (by norm_num)
  constructor
  · intro hlen
    obtain ⟨hrets, hv', hsize', hdiff'⟩ :=
      pushAll_ok vs r0 hv (by rw [hd0, hsize]; omega)
    have hfull : spsc_ring_is_full (pushAll r0 vs).2 = true := by
      rw [is_full_iff hv', hdiff', hd0, hsize', hsize]
      omega
    exact ⟨hrets, hfull, fun w => push_full w hfull⟩
  · intro hlen
    obtain ⟨hrets, hv', hsize', hdiff'⟩ :=
      pushAll_ok vs r0 hv (by rw [hd0, hsize]; omega)
    refine ⟨hrets, ?_⟩
    cases hfull : spsc_ring_is_full (pushAll r0 vs).2 with
    | false => rfl
    | true =>
      have h1 := (is_full_iff hv').1 hfull
      rw [hdiff', hd0, hsize', hsize] at h1
      omega

theorem spsc_ring_full_detection_witness :
    ((pushAll (spsc_ring.mk [0, 0, 0, 0] 4 3 0 0) [7, 8, 9]).1
        = List.replicate 3 0 ∧
      spsc_ring_is_full (pushAll (spsc_ring.mk [0, 0, 0, 0] 4 3 0 0)
        [7, 8, 9]).2 = true ∧
      spsc_ring_push
          (some (pushAll (spsc_ring.mk [0, 0, 0, 0] 4 3 0 0) [7, 8, 9]).2) 10
        = (-1, some (pushAll (spsc_ring.mk [0, 0, 0, 0] 4 3 0 0)
            [7, 8, 9]).2)) ∧
    ((pushAll (spsc_ring.mk [0, 0, 0, 0] 4 3 0 0) [7, 8]).1
        = List.replicate 2 0 ∧
      spsc_ring_is_full (pushAll (spsc_ring.mk [0, 0, 0, 0] 4 3 0 0)
        [7, 8]).2 = false) := by
  have h1 := spsc_ring_full_detection (by norm_num : (4 : Nat) = 2 ^ 2)
    (by norm_num)
    (by decide : spsc_ring_init 4 = some (spsc_ring.mk [0, 0, 0, 0] 4 3 0 0))
    [7, 8, 9]
  have h2 := spsc_ring_full_detection (by norm_num : (4 : Nat) = 2 ^ 2)
    (by norm_num)
    (by decide : spsc_ring_init 4 = some (spsc_ring.mk [0, 0, 0, 0] 4 3 0 0))
    [7, 8]
  obtain ⟨ha, hb, hc⟩ := h1.1 (by norm_num)
  obtain ⟨hd, he⟩ := h2.2 (by norm_num)
  exact ⟨⟨ha, hb, hc 10⟩, hd, he⟩

/-- C3: a fresh ring is empty; after one successful push it is non-empty;
popping that value returns it and makes the ring empty again; a pop on any
empty ring fails and leaves the output location unchanged; a pop on any
non-empty ring with a null output location succeeds, discards the value,
and advances the read cursor by one (mod `2^32`). -/
theorem spsc_ring_empty_detection {capacity k : Nat} (hk : capacity = 2 ^ k)
    (hk32 : k ≤ 32) {r0 : spsc_ring}
    (h0 : spsc_ring_init capacity = some r0) :
    spsc_ring_is_empty r0 = true ∧
    (∀ (v : Int) (r1 : spsc_ring),
      spsc_ring_push (some r0) v = (0, some r1) →
      spsc_ring_is_empty r1 = false ∧
      ∀ o : Int,
        (spsc_ring_pop r1 (some o)).1 = 0 ∧
        (spsc_ring_pop r1 (some o)).2.2 = some v ∧
        spsc_ring_is_empty (spsc_ring_pop r1 (some o)).2.1 = true) ∧
    (∀ (r : spsc_ring) (out_fd : Option Int),
      spsc_ring_is_empty r = true →
      spsc_ring_pop r out_fd = (-1, r, out_fd)) ∧
    (∀ r : spsc_ring, spsc_ring_is_empty r = false →
      spsc_ring_pop r none
        = (0, { r with head := (r.head + 1) % U32MOD }, none)) := by
  obtain ⟨hv, hsize, -, -, -, -, hd0, hcont0⟩ := init_valid hk hk32 h0
  refine ⟨(is_empty_iff hv).2 hd0, ?_,
    fun r out he => pop_empty out he,
    fun r hne => by simp [spsc_ring_pop, hne]⟩
  intro v r1 hpush
  cases hfull : spsc_ring_is_full r0 with
  | true =>
    rw [push_full v hfull] at hpush
    exact absurd (congrArg Prod.fst hpush) (by norm_num)
  | false =>
    obtain ⟨r1', hpush', hv1, hsize1, -, hdiff1, hcont1⟩ := push_ok hv v hfull
    rw [hpush'] at hpush
    have hr1 : r1' = r1 := by
      have h2 := congrArg Prod.snd hpush
      simpa using h2
    subst hr1
    have hd1 : ringDiff r1' = 1 := by rw [hdiff1, hd0]
    have hne1 : spsc_ring_is_empty r1' = false := by
      cases h : spsc_ring_is_empty r1' with
      | false => rfl
      | true =>
        have h1 := (is_empty_iff hv1).1 h
        omega
    refine ⟨hne1, fun o => ?_⟩
    obtain ⟨r2, x, q', hcons, hpops, -, hv2, -, -, -, -, hdiff2, -⟩ :=
      pop_ok hv1 hne1
    have hxv : x = v := by
      rw [hcont1, hcont0] at hcons
      simp at hcons
      exact hcons.1.symm
    rw [hpops o, hxv]
    refine ⟨rfl, rfl, ?_⟩
    show spsc_ring_is_empty r2 = true
    rw [is_empty_iff hv2, hdiff2, hd1]

theorem spsc_ring_empty_detection_witness :
    spsc_ring_is_empty (spsc_ring.mk [0, 0] 2 1 0 0) = true ∧
    spsc_ring_is_empty (spsc_ring.mk [5, 0] 2 1 0 1) = false ∧
    (spsc_ring_pop (spsc_ring.mk [5, 0] 2 1 0 1) (some 99)).1 = 0 ∧
    (spsc_ring_pop (spsc_ring.mk [5, 0] 2 1 0 1) (some 99)).2.2 = some 5 ∧
    spsc_ring_is_empty
      (spsc_ring_pop (spsc_ring.mk [5, 0] 2 1 0 1) (some 99)).2.1 = true ∧
    spsc_ring_pop (spsc_ring.mk [0, 0] 2 1 0 0) (some 41)
      = (-1, spsc_ring.mk [0, 0] 2 1 0 0, some 41) ∧
    spsc_ring_pop (spsc_ring.mk [5, 0] 2 1 0 1) none
      = (0, spsc_ring.mk [5, 0] 2 1 1 1, none) := by
  have h := spsc_ring_empty_detection (by norm_num : (2 : Nat) = 2 ^ 1)
    (by norm_num)
    (by decide : spsc_ring_init 2 = some (spsc_ring.mk [0, 0] 2 1 0 0))
  have hpush := h.2.1 5 (spsc_ring.mk [5, 0] 2 1 0 1) (by decide)
  have hpop := hpush.2 99
  have hpe := h.2.2.1 (spsc_ring.mk [0, 0] 2 1 0 0) (some 41) (by decide)
  have hpn := h.2.2.2 (spsc_ring.mk [5, 0] 2 1 0 1) (by decide)
  exact ⟨h.1, hpush.1, hpop.1, hpop.2.1, hpop.2.2, hpe, hpn⟩

/-- C4: construction returns none exactly for a capacity of zero or not a
power of two (allocation being modelled as succeeding); for a power of two
it yields a ring with `mask = capacity - 1`, `capacity` slots, and both
cursors zero. -/
theorem spsc_ring_init_spec (capacity : Nat) :
    (spsc_ring_init capacity = none ↔
      capacity = 0 ∨ ¬ ∃ k, capacity = 2 ^ k) ∧
    (∀ r0 : spsc_ring, spsc_ring_init capacity = some r0 →
      r0.mask = capacity - 1 ∧ r0.size = capacity ∧
      r0.buf.length = capacity ∧ r0.head = 0 ∧ r0.tail = 0) := by
  constructor
  · constructor
    · intro hnone
      by_cases hc : capacity = 0
      · exact Or.inl hc
      · refine Or.inr ?_
        rintro ⟨k, hk⟩
        rw [init_pow_two hk] at hnone
        exact Option.noConfusion hnone
    · intro h
      rcases h with h | h
      · subst h; rfl
      · by_cases hc : capacity = 0
        · subst hc; rfl
        · have hpos : 0 < capacity := Nat.pos_of_ne_zero hc
          have hne : (capacity &&& (capacity - 1)) ≠ 0 := fun h0 =>
            h ((and_pred_eq_zero_iff capacity hpos).1 h0)
          simp [spsc_ring_init, hne]
  · intro r0 hsome
    by_cases hg : capacity = 0 ∨ (capacity &&& (capacity - 1)) ≠ 0
    · rw [spsc_ring_init, if_pos hg] at hsome
      exact Option.noConfusion hsome
    · rw [spsc_ring_init, if_neg hg, Option.some_inj] at hsome
      subst hsome
      exact ⟨rfl, rfl, by simp, rfl, rfl⟩

theorem spsc_ring_init_spec_witness :
    (spsc_ring.mk [0, 0, 0, 0] 4 3 0 0).mask = 4 - 1 ∧
    (spsc_ring.mk [0, 0, 0, 0] 4 3 0 0).size = 4 ∧
    (spsc_ring.mk [0, 0, 0, 0] 4 3 0 0).buf.length = 4 ∧
    (spsc_ring.mk [0, 0, 0, 0] 4 3 0 0).head = 0 ∧
    (spsc_ring.mk [0, 0, 0, 0] 4 3 0 0).tail = 0 :=
  (spsc_ring_init_spec 4).2 (spsc_ring.mk [0, 0, 0, 0] 4 3 0 0) (by decide)

/-- C5: for a constructed ring, after any sequence of pushes and pops the
unsigned difference `tail - head` stays between 0 and `capacity - 1`. -/
theorem spsc_ring_cursor_diff_invariant {capacity k : Nat}
    (hk : capacity = 2 ^ k) (hk32 : k ≤ 32) {r0 : spsc_ring}
    (h0 : spsc_ring_init capacity = some r0) (ops : List RingOp) :
    ringDiff (runRing r0 ops).1 ≤ capacity - 1 := by
  obtain ⟨hv, hsize, -, -, -, -, -, -⟩ := init_valid hk hk32 h0
  have h := runRing_sim ops r0 hv
  have hlt := h.2.1.diff_lt
  rw [h.1, hsize] at hlt
  omega

theorem spsc_ring_cursor_diff_invariant_witness :
    ringDiff (runRing (spsc_ring.mk [0, 0, 0, 0] 4 3 0 0)
      [RingOp.push 1, RingOp.push 2, RingOp.pop, RingOp.push 3]).1
      ≤ 4 - 1 :=
  spsc_ring_cursor_diff_invariant (by norm_num : (4 : Nat) = 2 ^ 2)
    (by norm_num)
    (by decide : spsc_ring_init 4 = some (spsc_ring.mk [0, 0, 0, 0] 4 3 0 0))
    [RingOp.push 1, RingOp.push 2, RingOp.pop, RingOp.push 3]

/-- C6: a push that fails because the ring is full and a pop that fails
because the ring is empty return the failure sentinel and leave the entire
ring state — cursors and every slot — and the output location unchanged. -/
theorem spsc_ring_fail_no_side_effects :
    (∀ (r : spsc_ring) (v : Int), spsc_ring_is_full r = true →
      spsc_ring_push (some r) v = (-1, some r)) ∧
    (∀ (r : spsc_ring) (out_fd : Option Int),
      spsc_ring_is_empty r = true →
      spsc_ring_pop r out_fd = (-1, r, out_fd)) :=
  ⟨fun _ v hf => push_full v hf, fun _ out he => pop_empty out he⟩

theorem spsc_ring_fail_no_side_effects_witness :
    spsc_ring_push (some (spsc_ring.mk [0] 1 0 0 0)) 42
      = (-1, some (spsc_ring.mk [0] 1 0 0 0)) ∧
    spsc_ring_pop (spsc_ring.mk [0] 1 0 0 0) (some 7)
      = (-1, spsc_ring.mk [0] 1 0 0 0, some 7) :=
  ⟨spsc_ring_fail_no_side_effects.1 (spsc_ring.mk [0] 1 0 0 0) 42 (by decide),
   spsc_ring_fail_no_side_effects.2 (spsc_ring.mk [0] 1 0 0 0) (some 7)
     (by decide)⟩

/-- C7: destroy of a null or already-cleared handle is a no-op; destroy of
a valid instance clears the handle; destroying twice equals destroying
once. -/
theorem spsc_ring_destroy_safe :
    spsc_ring_destroy none = none ∧
    spsc_ring_destroy (some none) = some none ∧
    (∀ r : spsc_ring, spsc_ring_destroy (some (some r)) = some none) ∧
    (∀ x : Option (Option spsc_ring),
      spsc_ring_destroy (spsc_ring_destroy x) = spsc_ring_destroy x) := by
  refine ⟨rfl, rfl, fun r => rfl, fun x => ?_⟩
  cases x with
  | none => rfl
  | some o => cases o <;> rfl

/-- C8: the orderings the code actually uses for the two atomic loads in
`spsc_ring_is_full` (src/app/src/spsc_ring.c:348 and 355): `head` — the
read cursor — is loaded with `memory_order_relaxed` and `tail` — the write
cursor — with `memory_order_acquire`, the reverse of the claimed
readCursor-acquire / writeCursor-relaxed pairing. -/
theorem spsc_ring_is_full_load_orders :
    spsc_ring_is_full_head_load_order = MemOrder.relaxed ∧
    spsc_ring_is_full_tail_load_order = MemOrder.acquire ∧
    spsc_ring_is_full_head_load_order ≠ MemOrder.acquire ∧
    spsc_ring_is_full_tail_load_order ≠ MemOrder.relaxed := by
  refine ⟨rfl, rfl, ?_, ?_⟩ <;> decide

/-- C9: a push on a null ring pointer returns -1 and touches nothing (the
embedding gives pop, is_empty and is_full no null case: the C code
dereferences their argument unconditionally). -/
theorem spsc_ring_push_null (fd : Int) :
    spsc_ring_push none fd = (-1, none) := rfl

/-- C10: capacity 1 is accepted (a power of two), but with `mask = 0` every
state of such a ring reports both empty and full, and every push fails
without changing anything: no value can ever be stored. -/
theorem spsc_ring_capacity_one :
    spsc_ring_init 1 = some (spsc_ring.mk [0] 1 0 0 0) ∧
    (∀ r : spsc_ring, r.mask = 0 →
      spsc_ring_is_empty r = true ∧ spsc_ring_is_full r = true ∧
      ∀ v : Int, spsc_ring_push (some r) v = (-1, some r)) := by
  refine ⟨by decide, fun r hm => ?_⟩
  have hf : spsc_ring_is_full r = true := by
    simp [spsc_ring_is_full, hm]
  exact ⟨by simp [spsc_ring_is_empty, hm], hf, fun v => push_full v hf⟩

theorem spsc_ring_capacity_one_witness :
    spsc_ring_is_empty (spsc_ring.mk [0] 1 0 5 5) = true ∧
    spsc_ring_is_full (spsc_ring.mk [0] 1 0 5 5) = true ∧
    spsc_ring_push (some (spsc_ring.mk [0] 1 0 5 5)) 9
      = (-1, some (spsc_ring.mk [0] 1 0 5 5)) := by
  have h := spsc_ring_capacity_one.2 (spsc_ring.mk [0] 1 0 5 5) rfl
  exact ⟨h.1, h.2.1, h.2.2 9⟩
